import Mathlib

/-!
Verification development for the constraint-synthesis layer of the lurk
repository (files `src/lem/circuit.rs` and `src/field.rs`).

Field elements are embedded as `ZMod p` (canonical residues), machine
integers as `Nat` with explicit truncation, and byte strings as lists of
naturals below 256.  Stateful Rust code is embedded as explicit state
passing.  Definitions marked `Modelled from the spec:` stand for code of
the repository that is outside the two source files (gadget libraries,
the slot module, the store); everything else is translated directly from
the source.
-/

namespace LurkSpec

/-! ### Byte encoding of field elements (`src/field.rs`) -/

/-- Fixed-width little-endian byte string of a natural number, `w` bytes.
This is the canonical representation `Self::Repr` used by `to_repr`. -/
def leBytes : Nat → Nat → List Nat
  | 0, _ => []
  | w + 1, n => n % 256 :: leBytes w (n / 256)

/-- Little-endian decoding of a byte string, inverse of `leBytes`. -/
def leDecode : List Nat → Nat
  | [] => 0
  | b :: bs => b + 256 * leDecode bs

/-- Embeds `LurkField::to_bytes`: the canonical little-endian
representation of the element, of fixed width `w` (the modulus byte
size of the field; 32 for the supported curves). -/
def toBytes (w : Nat) {p : Nat} [NeZero p] (f : ZMod p) : List Nat :=
  leBytes w f.val

/-- Embeds `LurkField::from_bytes`.  The source copies the slice into the
fixed-width representation with `copy_from_slice`, which panics when the
lengths differ: the outer `none` stands for that panic.  It then calls
`from_repr`, which yields the inner `none` when the decoded value is not
a canonical residue (at least the modulus). -/
def fromBytes (w : Nat) (p : Nat) (bs : List Nat) : Option (Option (ZMod p)) :=
  if bs.length = w then
    if leDecode bs < p then some (some ((leDecode bs : Nat) : ZMod p)) else some none
  else none

theorem leBytes_length (w n : Nat) : (leBytes w n).length = w := by
  induction w generalizing n with
  | zero => rfl
  | succ w ih => simp [leBytes, ih]

theorem leDecode_leBytes (w n : Nat) (h : n < 256 ^ w) : leDecode (leBytes w n) = n := by
  induction w generalizing n with
  | zero =>
    simp [leBytes, leDecode]
    omega
  | succ w ih =>
    have hq : n / 256 < 256 ^ w := by
      rw [Nat.div_lt_iff_lt_mul (by norm_num)]
      calc n < 256 ^ (w + 1) := h
        _ = 256 ^ w * 256 := by ring
    simp [leBytes, leDecode, ih _ hq]
    omega

/-- Claim C8: for every field element `f`, `from_bytes (to_bytes f)` succeeds and
returns `f`, and `to_bytes` produces exactly the fixed representation width. -/
theorem toBytes_fromBytes_roundtrip {p w : Nat} [NeZero p] (hw : p ≤ 256 ^ w)
    (f : ZMod p) :
    fromBytes w p (toBytes w f) = some (some f) ∧ (toBytes w f).length = w := by
  have hval : f.val < 256 ^ w := lt_of_lt_of_le (ZMod.val_lt f) hw
  have hdec : leDecode (leBytes w f.val) = f.val := leDecode_leBytes w f.val hval
  refine ⟨?_, leBytes_length w f.val⟩
  simp only [fromBytes, toBytes, leBytes_length, if_true, hdec, ZMod.val_lt f, if_pos rfl]
  simp [ZMod.natCast_rightInverse f]

theorem toBytes_fromBytes_roundtrip_witness :
    fromBytes 1 13 (toBytes 1 (7 : ZMod 13)) = some (some 7)
      ∧ (toBytes 1 (7 : ZMod 13)).length = 1 :=
  toBytes_fromBytes_roundtrip (by norm_num) (7 : ZMod 13)

/-- Claim C10: `from_bytes` returns `None` (inner `none`) exactly for a slice of
the correct representation width whose decoded value is not a canonical field
element; for a slice of any other length it panics in `copy_from_slice`
(outer `none`) instead of returning `None`. -/
theorem fromBytes_length_discipline {p w : Nat} (bs : List Nat) :
    (fromBytes w p bs = some none ↔ bs.length = w ∧ p ≤ leDecode bs)
      ∧ (bs.length ≠ w → fromBytes w p bs = none) := by
  constructor
  · unfold fromBytes
    by_cases hl : bs.length = w
    · by_cases hv : leDecode bs < p <;> (simp [hl, hv]; try omega)
    · simp [hl]
  · intro hl
    simp [fromBytes, hl]

theorem fromBytes_length_discipline_witness :
    fromBytes 1 13 [200, 7] = none :=
  (fromBytes_length_discipline [200, 7]).2 (by decide)

/-! ### Signed halves of the field (`src/field.rs`) -/

/-- Embeds `LurkField::most_positive`: `half * (0 - 1)` where `half` is the
inverse of `1 + 1`. -/
def mostPositive (p : Nat) : ZMod p :=
  ((1 : ZMod p) + 1)⁻¹ * ((0 : ZMod p) - 1)

/-- Embeds `LurkField::most_negative`: `most_positive + 1`. -/
def mostNegative (p : Nat) : ZMod p :=
  mostPositive p + 1

/-- Embeds `LurkField::is_negative`: the element is odd after doubling. -/
def isNegative {p : Nat} [NeZero p] (f : ZMod p) : Bool :=
  decide ((f + f).val % 2 = 1)

theorem mostPositive_eq_cast (p : Nat) [Fact p.Prime] (hp : p ≠ 2) :
    mostPositive p = (((p - 1) / 2 : Nat) : ZMod p) := by
  have hprime : p.Prime := Fact.out
  have hp3 : 2 < p := lt_of_le_of_ne hprime.two_le (Ne.symm hp)
  have hodd : p % 2 = 1 := Nat.odd_iff.mp (hprime.odd_of_ne_two hp)
  have h2 : ((1 : ZMod p) + 1) = ((2 : Nat) : ZMod p) := by push_cast; ring
  have h2ne : ((2 : Nat) : ZMod p) ≠ 0 := by
    rw [Ne, ZMod.natCast_zmod_eq_zero_iff_dvd]
    intro hdvd
    exact absurd (Nat.le_of_dvd (by norm_num) hdvd) (by omega)
  have hkey : ((2 : Nat) : ZMod p) * (((p - 1) / 2 : Nat) : ZMod p) = (0 : ZMod p) - 1 := by
    rw [← Nat.cast_mul]
    have hhalf : 2 * ((p - 1) / 2) = p - 1 := by omega
    rw [hhalf]
    have hcast : ((p - 1 : Nat) : ZMod p) = ((p : Nat) : ZMod p) - 1 := by
      have h1p : 1 ≤ p := by omega
      push_cast [Nat.cast_sub h1p]
      ring
    rw [hcast, ZMod.natCast_self]
  unfold mostPositive
  rw [h2, ← hkey, inv_mul_cancel_left₀ h2ne]

/-- Claim C9: `most_positive` is half of `0 - 1` (the residue `(p - 1) / 2`),
`most_negative` is its successor, and `is_negative` holds exactly on the upper
half of the field: a residue is negative iff doubling it is odd, iff it is
strictly greater than `most_positive`, so the field is partitioned into the
non-negative residues `{0, …, most_positive}` and the negative ones. -/
theorem negativity_convention (p : Nat) [Fact p.Prime] (hp : p ≠ 2) :
    (mostPositive p).val = (p - 1) / 2
      ∧ mostNegative p = mostPositive p + 1
      ∧ (∀ f : ZMod p, isNegative f = true ↔ (mostPositive p).val < f.val)
      ∧ (∀ f : ZMod p, isNegative f = false ↔ f.val ≤ (mostPositive p).val) := by
  have hprime : p.Prime := Fact.out
  have hp3 : 2 < p := lt_of_le_of_ne hprime.two_le (Ne.symm hp)
  have hodd : p % 2 = 1 := Nat.odd_iff.mp (hprime.odd_of_ne_two hp)
  have hval : (mostPositive p).val = (p - 1) / 2 := by
    rw [mostPositive_eq_cast p hp, ZMod.val_cast_of_lt (by omega)]
  have hneg : ∀ f : ZMod p, isNegative f = true ↔ (mostPositive p).val < f.val := by
    intro f
    have hf : f.val < p := ZMod.val_lt f
    have hdouble : (f + f).val = (f.val + f.val) % p := ZMod.val_add f f
    rw [isNegative, decide_eq_true_iff, hdouble, hval]
    rcases le_or_lt (f.val + f.val) (p - 1) with hle | hgt
    · rw [Nat.mod_eq_of_lt (show f.val + f.val < p by omega)]
      omega
    · have hsub : (f.val + f.val) % p = f.val + f.val - p := by
        conv_lhs => rw [show f.val + f.val = (f.val + f.val - p) + p by omega]
        rw [Nat.add_mod_right]
        exact Nat.mod_eq_of_lt (by omega)
      rw [hsub]
      omega
  refine ⟨hval, rfl, hneg, ?_⟩
  intro f
  have := hneg f
  constructor
  · intro hfalse
    by_contra hlt
    exact absurd (this.mpr (by omega)) (by simp [hfalse])
  · intro hle
    by_contra htrue
    have := this.mp (by simpa using htrue)
    omega

theorem negativity_convention_witness :
    (mostPositive 13).val = (13 - 1) / 2
      ∧ mostNegative 13 = mostPositive 13 + 1
      ∧ (∀ f : ZMod 13, isNegative f = true ↔ (mostPositive 13).val < f.val)
      ∧ (∀ f : ZMod 13, isNegative f = false ↔ f.val ≤ (mostPositive 13).val) :=
  have : Fact (Nat.Prime 13) := ⟨by norm_num⟩
  negativity_convention 13 (by norm_num)

/-! ### The DivRem64 operation (`src/lem/circuit.rs`, `Op::DivRem64`) -/

/-- Embeds `LurkField::to_u64_unchecked`: the first 8 bytes of the canonical
little-endian representation, that is, the canonical residue modulo `2 ^ 64`. -/
def toU64Unchecked {p : Nat} [NeZero p] (f : ZMod p) : Nat :=
  f.val % 2 ^ 64

/-- Embeds the witness assignment of `Op::DivRem64`: on the concrete path the
unsigned 64-bit quotient and remainder of the operands, on a virtual path the
dummy pair `(0, a)`. -/
def divRem64Witness {p : Nat} [NeZero p] (notDummy : Bool) (a b : ZMod p) :
    ZMod p × ZMod p :=
  if notDummy then
    (((toU64Unchecked a / toU64Unchecked b : Nat) : ZMod p),
      ((toU64Unchecked a % toU64Unchecked b : Nat) : ZMod p))
  else (0, a)

/-- Claim C4: on the concrete path the DivRem64 witness is the exact unsigned
64-bit quotient and remainder (so `a = b * div + rem` and `0 ≤ rem < b`, with
`div`, `rem` and `b - rem` all fitting in 64 bits); on a virtual path the
witness is `(0, a)`; and the identity `a = b * div + rem` holds of the witness
in both cases, matching the ungated `enforce_product_and_sum` constraint. -/
theorem divRem64_spec {p : Nat} [NeZero p] (hp : 2 ^ 64 < p) (a b : ZMod p)
    (ha : a.val < 2 ^ 64) (hb : b.val < 2 ^ 64) (hb0 : b ≠ 0) :
    ((divRem64Witness true a b).1.val = a.val / b.val
      ∧ (divRem64Witness true a b).2.val = a.val % b.val
      ∧ a = b * (divRem64Witness true a b).1 + (divRem64Witness true a b).2
      ∧ (divRem64Witness true a b).2.val < b.val
      ∧ (divRem64Witness true a b).1.val < 2 ^ 64
      ∧ (divRem64Witness true a b).2.val < 2 ^ 64
      ∧ (b - (divRem64Witness true a b).2).val < 2 ^ 64)
      ∧ (divRem64Witness false a b = (0, a) ∧ a = b * 0 + a) := by
  have hbv : b.val ≠ 0 := fun h => hb0 ((ZMod.val_eq_zero b).mp h)
  have hua : toU64Unchecked a = a.val := Nat.mod_eq_of_lt ha
  have hub : toU64Unchecked b = b.val := Nat.mod_eq_of_lt hb
  have hdivlt : a.val / b.val < 2 ^ 64 :=
    lt_of_le_of_lt (Nat.div_le_self a.val b.val) ha
  have hmodlt : a.val % b.val < b.val := Nat.mod_lt a.val (Nat.pos_of_ne_zero hbv)
  have hdval : (divRem64Witness true a b).1.val = a.val / b.val := by
    simp only [divRem64Witness, if_pos rfl, if_true, hua, hub]
    exact ZMod.val_cast_of_lt (by omega)
  have hrval : (divRem64Witness true a b).2.val = a.val % b.val := by
    simp only [divRem64Witness, if_pos rfl, if_true, hua, hub]
    exact ZMod.val_cast_of_lt (by omega)
  refine ⟨⟨hdval, hrval, ?_, by omega, by omega, by omega, ?_⟩, ⟨rfl, by ring⟩⟩
  · simp only [divRem64Witness, if_pos rfl, if_true, hua, hub]
    conv_lhs => rw [← ZMod.natCast_rightInverse a, ← Nat.div_add_mod a.val b.val]
    push_cast
    rw [ZMod.natCast_rightInverse b]
  · have hrdef : (divRem64Witness true a b).2 = ((a.val % b.val : Nat) : ZMod p) := by
      simp only [divRem64Witness, if_pos rfl, if_true, hua, hub]
    have hsub : b - (divRem64Witness true a b).2
        = ((b.val - a.val % b.val : Nat) : ZMod p) := by
      rw [hrdef, Nat.cast_sub (le_of_lt hmodlt)]
      congr 1
      exact (ZMod.natCast_rightInverse b).symm
    rw [hsub, ZMod.val_cast_of_lt (by omega)]
    omega

instance : NeZero (2 ^ 65 : Nat) := ⟨by positivity⟩

theorem divRem64_spec_witness :
    (((divRem64Witness true (100 : ZMod (2 ^ 65)) 7).1.val
          = (100 : ZMod (2 ^ 65)).val / (7 : ZMod (2 ^ 65)).val
      ∧ (divRem64Witness true (100 : ZMod (2 ^ 65)) 7).2.val
          = (100 : ZMod (2 ^ 65)).val % (7 : ZMod (2 ^ 65)).val
      ∧ (100 : ZMod (2 ^ 65)) = 7 * (divRem64Witness true (100 : ZMod (2 ^ 65)) 7).1
          + (divRem64Witness true (100 : ZMod (2 ^ 65)) 7).2
      ∧ (divRem64Witness true (100 : ZMod (2 ^ 65)) 7).2.val < (7 : ZMod (2 ^ 65)).val
      ∧ (divRem64Witness true (100 : ZMod (2 ^ 65)) 7).1.val < 2 ^ 64
      ∧ (divRem64Witness true (100 : ZMod (2 ^ 65)) 7).2.val < 2 ^ 64
      ∧ ((7 : ZMod (2 ^ 65)) - (divRem64Witness true (100 : ZMod (2 ^ 65)) 7).2).val < 2 ^ 64)
      ∧ (divRem64Witness false (100 : ZMod (2 ^ 65)) 7 = (0, 100)
        ∧ (100 : ZMod (2 ^ 65)) = 7 * 0 + 100)) :=
  divRem64_spec (by norm_num) 100 7 (by decide) (by decide) (by decide)

/-! ### The global constant cache (`src/lem/circuit.rs`, `GlobalAllocator`) -/

/-- State of a `GlobalAllocator` together with its constraint-system sink:
`cache` is the hash map from field values (canonical residues) to allocation
handles, `sink` the number of allocations made on the sink so far.  A handle
is the index of the allocation that produced it. -/
structure GAlloc where
  cache : List (Nat × Nat)
  sink : Nat

/-- Lookup of a field value in the cache (`HashMap::get`). -/
def lookupCache : List (Nat × Nat) → Nat → Option Nat
  | [], _ => none
  | (k, v) :: rest, f => if k = f then some v else lookupCache rest f

/-- Embeds `GlobalAllocator::get_or_alloc_const`: return the cached handle if
the value was seen, otherwise allocate one constant on the sink (one new
allocation, whose index is the new handle), cache it and return it. -/
def getOrAllocConst (st : GAlloc) (f : Nat) : Nat × GAlloc :=
  match lookupCache st.cache f with
  | some h => (h, st)
  | none => (st.sink, ⟨(f, st.sink) :: st.cache, st.sink + 1⟩)

/-- Well-formedness of an allocator state: every cached handle points below
the sink head and no two cache entries share a handle.  This holds for the
fresh allocator that `synthesize` creates and is preserved by every call. -/
def GAllocWF (st : GAlloc) : Prop :=
  (∀ pr ∈ st.cache, pr.2 < st.sink) ∧ (st.cache.map Prod.snd).Nodup

theorem lookupCache_mem {l : List (Nat × Nat)} {f h : Nat}
    (hl : lookupCache l f = some h) : (f, h) ∈ l := by
  induction l with
  | nil => simp [lookupCache] at hl
  | cons pr rest ih =>
    obtain ⟨k, v⟩ := pr
    by_cases hk : k = f
    · simp [lookupCache, hk] at hl
      simp [hk, hl]
    · simp [lookupCache, hk] at hl
      simp [ih hl]

theorem lookupCache_distinct {l : List (Nat × Nat)} {f g hf hg : Nat}
    (hnd : (l.map Prod.snd).Nodup) (hfg : f ≠ g)
    (h1 : lookupCache l f = some hf) (h2 : lookupCache l g = some hg) : hf ≠ hg := by
  induction l with
  | nil => simp [lookupCache] at h1
  | cons pr rest ih =>
    obtain ⟨k, v⟩ := pr
    simp only [List.map_cons, List.nodup_cons] at hnd
    by_cases hkf : k = f
    · subst hkf
      simp [lookupCache] at h1
      simp [lookupCache, hfg] at h2
      subst h1
      intro hh
      refine hnd.1 ?_
      rw [hh]
      exact List.mem_map_of_mem Prod.snd (lookupCache_mem h2)
    · by_cases hkg : k = g
      · subst hkg
        simp [lookupCache] at h2
        simp [lookupCache, hkf] at h1
        subst h2
        intro hh
        refine hnd.1 ?_
        rw [← hh]
        exact List.mem_map_of_mem Prod.snd (lookupCache_mem h1)
      · simp [lookupCache, hkf] at h1
        simp [lookupCache, hkg] at h2
        exact ih hnd.2 h1 h2

/-- Claim C7: within one synthesis invocation, a repeated call of
`get_or_alloc_const` with an equal field value returns the same handle and
adds nothing to the sink (the state is unchanged); a call with an unequal
value returns a distinct handle; a cache miss adds exactly one allocation to
the sink while a hit adds none; and well-formedness holds for the fresh
allocator of each invocation and is preserved by every call. -/
theorem getOrAllocConst_contract (st : GAlloc) (f g : Nat)
    (hwf : GAllocWF st) (hfg : f ≠ g) :
    getOrAllocConst (getOrAllocConst st f).2 f = getOrAllocConst st f
      ∧ (getOrAllocConst (getOrAllocConst st f).2 g).1 ≠ (getOrAllocConst st f).1
      ∧ (lookupCache st.cache f = none →
          (getOrAllocConst st f).2.sink = st.sink + 1)
      ∧ (∀ h, lookupCache st.cache f = some h → (getOrAllocConst st f).2 = st)
      ∧ GAllocWF (getOrAllocConst st f).2
      ∧ (∀ n, GAllocWF ⟨[], n⟩) := by
  obtain ⟨hlt, hnd⟩ := hwf
  rcases hcase : lookupCache st.cache f with _ | h1
  · have hst1 : getOrAllocConst st f = (st.sink, ⟨(f, st.sink) :: st.cache, st.sink + 1⟩) := by
      simp [getOrAllocConst, hcase]
    refine ⟨?_, ?_, fun _ => ?_, ?_, ?_, fun n => ⟨by simp, by simp⟩⟩
    · rw [hst1]
      simp [getOrAllocConst, lookupCache]
    · rw [hst1]
      rcases hg : lookupCache st.cache g with _ | hg1
      · simp [getOrAllocConst, lookupCache, hfg, hg]
      · have hglt : hg1 < st.sink := hlt _ (lookupCache_mem hg)
        simp [getOrAllocConst, lookupCache, hfg, hg]
        omega
    · rw [hst1]
    · intro h hsome
      exact Option.noConfusion hsome
    · rw [hst1]
      refine ⟨?_, ?_⟩
      · intro pr hpr
        rcases List.mem_cons.mp hpr with hhead | htail
        · simp [hhead]
        · exact Nat.lt_succ_of_lt (hlt pr htail)
      · refine List.nodup_cons.mpr ⟨?_, hnd⟩
        intro hmem
        rcases List.mem_map.mp hmem with ⟨pr, hprmem, hpr⟩
        exact absurd (hpr ▸ hlt pr hprmem) (by omega)
  · have hst1 : getOrAllocConst st f = (h1, st) := by
      simp [getOrAllocConst, hcase]
    refine ⟨?_, ?_, ?_, fun h _ => by rw [hst1], ?_, fun n => ⟨by simp, by simp⟩⟩
    · rw [hst1]
      exact hst1
    · rw [hst1]
      rcases hg : lookupCache st.cache g with _ | hg1
      · have hflt : h1 < st.sink := hlt _ (lookupCache_mem hcase)
        simp [getOrAllocConst, hg]
        omega
      · simp [getOrAllocConst, hg]
        exact (lookupCache_distinct hnd hfg hcase hg).symm
    · intro hnone
      exact Option.noConfusion hnone
    · rw [hst1]
      exact ⟨hlt, hnd⟩

theorem getOrAllocConst_contract_witness :
    getOrAllocConst (getOrAllocConst ⟨[], 0⟩ 5).2 5 = getOrAllocConst ⟨[], 0⟩ 5
      ∧ (getOrAllocConst (getOrAllocConst ⟨[], 0⟩ 5).2 6).1 ≠ (getOrAllocConst ⟨[], 0⟩ 5).1
      ∧ (lookupCache (GAlloc.mk [] 0).cache 5 = none →
          (getOrAllocConst ⟨[], 0⟩ 5).2.sink = (GAlloc.mk [] 0).sink + 1)
      ∧ (∀ h, lookupCache (GAlloc.mk [] 0).cache 5 = some h →
          (getOrAllocConst ⟨[], 0⟩ 5).2 = ⟨[], 0⟩)
      ∧ GAllocWF (getOrAllocConst ⟨[], 0⟩ 5).2
      ∧ (∀ n, GAllocWF ⟨[], n⟩) :=
  getOrAllocConst_contract ⟨[], 0⟩ 5 6 ⟨by simp, by simp⟩ (by decide)

/-! ### Branch selector booleans (`src/lem/circuit.rs`, `Ctrl::IfEq` /
`Ctrl::MatchTag` / `Ctrl::MatchVal`) -/

/-- Embeds the witness values of the two `IfEq` selector bits: `eq_val` is
`not_dummy && x == y` and `neq_val` is `not_dummy && x != y`. -/
def ifEqSelectors {F : Type} [DecidableEq F] (notDummy : Bool) (x y : F) : List Bool :=
  [notDummy && decide (x = y), notDummy && decide (¬x = y)]

/-- Embeds the witness values of the per-case selector bits of `MatchTag` and
`MatchVal`: one bit per case key (a tag field value or a literal hash),
`not_dummy && discriminant == key`. -/
def matchSelectors {F : Type} [DecidableEq F] (notDummy : Bool) (v : F)
    (keys : List F) : List Bool :=
  keys.map fun k => notDummy && decide (v = k)

/-- Embeds the witness value of the default-case selector bit: the fold of
`acc && !b` over the case selectors, seeded with `not_dummy`. -/
def defaultSelector (notDummy : Bool) (sels : List Bool) : Bool :=
  sels.foldl (fun acc b => acc && !b) notDummy

/-- The complete list of allocated selector booleans of a match terminator:
the per-case bits plus, when a default block is present, the default bit. -/
def matchAllSelectors {F : Type} [DecidableEq F] (notDummy : Bool) (v : F)
    (keys : List F) (hasDefault : Bool) : List Bool :=
  let sels := matchSelectors notDummy v keys
  if hasDefault then sels ++ [defaultSelector notDummy sels] else sels

/-- Modelled from the spec: the constraint emitted by
`enforce_selector_with_premise` is an implication gadget, trivially satisfied
when the premise is false and requiring exactly one true selector otherwise. -/
def selectorConstraintHolds (premise : Bool) (sels : List Bool) : Prop :=
  premise = true → sels.count true = 1

theorem defaultSelector_false (sels : List Bool) : defaultSelector false sels = false := by
  induction sels with
  | nil => rfl
  | cons b rest ih =>
    rw [defaultSelector, List.foldl_cons, Bool.false_and]
    exact ih

theorem defaultSelector_true (sels : List Bool) :
    defaultSelector true sels = sels.all (fun b => !b) := by
  rw [defaultSelector]
  induction sels with
  | nil => rfl
  | cons b rest ih =>
    cases b
    · simpa using ih
    · simp
      exact defaultSelector_false rest

theorem matchSelectors_count {F : Type} [DecidableEq F] (v : F) (keys : List F) :
    (matchSelectors true v keys).count true = keys.count v := by
  induction keys with
  | nil => rfl
  | cons k rest ih =>
    by_cases hk : v = k
    · simp [matchSelectors, hk, List.count_cons] at *
      omega
    · have hk2 : ¬k = v := fun hh => hk hh.symm
      simp [matchSelectors, hk, hk2, List.count_cons] at *
      exact ih

theorem all_not_iff_count (l : List Bool) :
    l.all (fun b => !b) = true ↔ l.count true = 0 := by
  rw [List.all_eq_true, List.count_eq_zero]
  constructor
  · intro h hmem
    simpa using h true hmem
  · intro h b hb
    cases b
    · rfl
    · exact absurd hb h

/-- Claim C3 (amended): for every `IfEq`, and for every `MatchTag`/`MatchVal`
whose case keys are pairwise distinct and whose discriminant matches a case or
which has a default block, a true `not_dummy` makes exactly one allocated
selector boolean true; a false `not_dummy` makes them all false, and the
`enforce_selector_with_premise` implication is then vacuously satisfied for
arbitrary selector values. -/
theorem selector_exclusivity {F : Type} [DecidableEq F] (x y v : F) (keys : List F)
    (hasDefault : Bool) (sels : List Bool)
    (hnodup : keys.Nodup) (hcover : hasDefault = true ∨ v ∈ keys) :
    (ifEqSelectors true x y).count true = 1
      ∧ (matchAllSelectors true v keys hasDefault).count true = 1
      ∧ (∀ b ∈ ifEqSelectors (F := F) false x y, b = false)
      ∧ (∀ b ∈ matchAllSelectors false v keys hasDefault, b = false)
      ∧ selectorConstraintHolds false sels := by
  have hsel : ∀ c ∈ matchSelectors (F := F) false v keys, c = false := by
    intro c hc
    simp only [matchSelectors, List.mem_map] at hc
    obtain ⟨k, _, hk⟩ := hc
    rw [← hk, Bool.false_and]
  refine ⟨?_, ?_, ?_, ?_, fun h => absurd h (by simp)⟩
  · by_cases hxy : x = y <;> simp [ifEqSelectors, hxy]
  · by_cases hmem : v ∈ keys
    · have hcount : (matchSelectors true v keys).count true = 1 := by
        rw [matchSelectors_count]
        exact List.count_eq_one_of_mem hnodup hmem
      by_cases hdt : hasDefault = true
      · have hall : (matchSelectors true v keys).all (fun b => !b) = false := by
          rcases hfb : (matchSelectors true v keys).all (fun b => !b) with _ | _
          · rfl
          · rw [all_not_iff_count] at hfb
            omega
        simp only [matchAllSelectors, if_pos hdt, List.count_append, hcount,
          defaultSelector_true, hall]
        rfl
      · simp only [matchAllSelectors, if_neg hdt]
        exact hcount
    · have hdef : hasDefault = true := hcover.resolve_right hmem
      have hcount : (matchSelectors true v keys).count true = 0 := by
        rw [matchSelectors_count]
        exact List.count_eq_zero.mpr hmem
      have hall : (matchSelectors true v keys).all (fun b => !b) = true :=
        (all_not_iff_count _).mpr hcount
      simp only [matchAllSelectors, if_pos hdef, List.count_append, hcount,
        defaultSelector_true, hall]
      rfl
  · intro b hb
    simp only [ifEqSelectors, Bool.false_and, List.mem_cons,
      List.not_mem_nil, or_false] at hb
    rcases hb with hb | hb
    · exact hb
    · exact hb
  · intro b hb
    by_cases hdt : hasDefault = true
    · simp only [matchAllSelectors, if_pos hdt, List.mem_append] at hb
      rcases hb with hb | hb
      · exact hsel b hb
      · rw [List.mem_singleton] at hb
        rw [hb, defaultSelector_false]
    · simp only [matchAllSelectors, if_neg hdt] at hb
      exact hsel b hb

/-- Claim C3 as frozen is refuted here: a concrete `MatchTag` with one case,
no default, and a discriminant equal to no case key leaves every selector
boolean false even though `not_dummy` is true. -/
theorem selector_exclusivity_counterexample :
    ¬ ((matchAllSelectors true (0 : ZMod 13) [1] false).count true = 1) := by
  decide

theorem selector_exclusivity_witness :
    (ifEqSelectors true (1 : ZMod 13) 2).count true = 1
      ∧ (matchAllSelectors true (3 : ZMod 13) [3, 5] false).count true = 1
      ∧ (∀ b ∈ ifEqSelectors (F := ZMod 13) false 1 2, b = false)
      ∧ (∀ b ∈ matchAllSelectors false (3 : ZMod 13) [3, 5] false, b = false)
      ∧ selectorConstraintHolds false [true, true] :=
  selector_exclusivity 1 2 3 [3, 5] false [true, true] (by decide) (Or.inr (by decide))

/-! ### Slot preallocation (`src/lem/circuit.rs`, `Func::allocate_slots`) -/

/-- Modelled from the spec: the five slot types of the slot module, with their
preimage arities (Hash2 = 4 field components, Hash3 = 6, Hash4 = 8,
Commitment = 3, LessThan = 2). -/
inductive SlotType where
  | hash2
  | hash3
  | hash4
  | commitment
  | lessThan
deriving DecidableEq

/-- Modelled from the spec: `SlotType::preimg_size`. -/
def SlotType.preimgSize : SlotType → Nat
  | .hash2 => 4
  | .hash3 => 6
  | .hash4 => 8
  | .commitment => 3
  | .lessThan => 2

/-- Embeds `PreimageData`: a sequence of pointers, a field element plus a
pointer, or a pair of field elements. -/
inductive PreimageData (Ptr : Type) (F : Type) where
  | ptrVec (ptrs : List Ptr)
  | fPtr (f : F) (ptr : Ptr)
  | fPair (a b : F)

/-- Preimage components allocated for one entry: each pointer contributes its
tag field and hash (obtained through `store.hash_ptr`, here the parameter
`hashPtr`), pushed in order exactly as in the source loop. -/
def preimgComponents {Ptr F : Type} (hashPtr : Ptr → F × F) :
    PreimageData Ptr F → List F
  | .ptrVec ptrs => ptrs.foldr (fun ptr acc => (hashPtr ptr).1 :: (hashPtr ptr).2 :: acc) []
  | .fPtr f ptr => [f, (hashPtr ptr).1, (hashPtr ptr).2]
  | .fPair a b => [a, b]

/-- Embeds `Func::allocate_img_for_slot`: the fixed-arity Poseidon hash for
the hash and commitment slot types (the Poseidon gadget is outside the
sources, hence the parameter `poseidon`), and for `LessThan` the
subtraction-plus-sign-bit gadget: subtract, take the sign bit with the
negativity convention of `src/field.rs`, and convert the boolean to 0/1. -/
def allocateImgForSlot {p : Nat} [NeZero p]
    (poseidon : SlotType → List (ZMod p) → ZMod p)
    (t : SlotType) (preimg : List (ZMod p)) : ZMod p :=
  match t with
  | .lessThan =>
      let aNum := preimg.getD 0 0
      let bNum := preimg.getD 1 0
      let diff := aNum - bNum
      if isNegative diff then 1 else 0
  | t => poseidon t preimg

/-- Embeds the allocation loop of `Func::allocate_slots`: one preimage/image
pair per slot index, real data for present entries, zero dummies otherwise. -/
def allocateSlotsLoop {Ptr : Type} {p : Nat} [NeZero p]
    (hashPtr : Ptr → ZMod p × ZMod p)
    (poseidon : SlotType → List (ZMod p) → ZMod p) (slotType : SlotType) :
    List (Option (PreimageData Ptr (ZMod p))) → List (List (ZMod p) × ZMod p)
  | [] => []
  | some d :: rest =>
      let pre := preimgComponents hashPtr d
      (pre, allocateImgForSlot poseidon slotType pre)
        :: allocateSlotsLoop hashPtr poseidon slotType rest
  | none :: rest =>
      let pre := List.replicate slotType.preimgSize (0 : ZMod p)
      (pre, allocateImgForSlot poseidon slotType pre)
        :: allocateSlotsLoop hashPtr poseidon slotType rest

/-- Embeds `Func::allocate_slots`: the assertion that the collected preimages
equal the number of available slots comes first (`none` models the assertion
failure), then the loop fills the vector. -/
def allocateSlots {Ptr : Type} {p : Nat} [NeZero p]
    (hashPtr : Ptr → ZMod p × ZMod p)
    (poseidon : SlotType → List (ZMod p) → ZMod p)
    (preimgData : List (Option (PreimageData Ptr (ZMod p))))
    (slotType : SlotType) (numSlots : Nat) :
    Option (List (List (ZMod p) × ZMod p)) :=
  if preimgData.length = numSlots then
    some (allocateSlotsLoop hashPtr poseidon slotType preimgData)
  else none

theorem allocateSlotsLoop_length {Ptr : Type} {p : Nat} [NeZero p]
    (hashPtr : Ptr → ZMod p × ZMod p) (poseidon : SlotType → List (ZMod p) → ZMod p)
    (slotType : SlotType) (l : List (Option (PreimageData Ptr (ZMod p)))) :
    (allocateSlotsLoop hashPtr poseidon slotType l).length = l.length := by
  induction l with
  | nil => rfl
  | cons e rest ih =>
    rcases e with _ | d <;> simp [allocateSlotsLoop, ih]

theorem allocateSlotsLoop_getD {Ptr : Type} {p : Nat} [NeZero p]
    (hashPtr : Ptr → ZMod p × ZMod p) (poseidon : SlotType → List (ZMod p) → ZMod p)
    (slotType : SlotType) (l : List (Option (PreimageData Ptr (ZMod p))))
    (i : Nat) (hi : i < l.length) :
    (allocateSlotsLoop hashPtr poseidon slotType l).getD i ([], 0)
      = match l.getD i none with
        | some d =>
            (preimgComponents hashPtr d,
              allocateImgForSlot poseidon slotType (preimgComponents hashPtr d))
        | none =>
            (List.replicate slotType.preimgSize (0 : ZMod p),
              allocateImgForSlot poseidon slotType
                (List.replicate slotType.preimgSize (0 : ZMod p))) := by
  induction l generalizing i with
  | nil => exact absurd hi (by simp)
  | cons e rest ih =>
    rcases i with _ | j
    · rcases e with _ | d <;> simp [allocateSlotsLoop]
    · have hj : j < rest.length := by
        simpa using Nat.lt_of_succ_lt_succ hi
      rcases e with _ | d <;> simpa [allocateSlotsLoop] using ih j hj

/-- Claim C2: for every slot type, static count `N` and list of `N` optional
preimage entries, `allocate_slots` succeeds with a vector of exactly `N`
preimage/image pairs in slot order; a present entry contributes its own
components as the preimage, an absent entry contributes all-zero components,
and in both cases the image is derived from that preimage by the same rule
(the fixed-arity Poseidon hash, or the comparison gadget for `LessThan`). -/
theorem allocateSlots_spec {Ptr : Type} {p : Nat} [NeZero p]
    (hashPtr : Ptr → ZMod p × ZMod p) (poseidon : SlotType → List (ZMod p) → ZMod p)
    (preimgData : List (Option (PreimageData Ptr (ZMod p))))
    (slotType : SlotType) (numSlots : Nat)
    (hlen : preimgData.length = numSlots) :
    ∃ out, allocateSlots hashPtr poseidon preimgData slotType numSlots = some out
      ∧ out.length = numSlots
      ∧ ∀ i, i < numSlots →
          out.getD i ([], 0)
            = match preimgData.getD i none with
              | some d =>
                  (preimgComponents hashPtr d,
                    allocateImgForSlot poseidon slotType (preimgComponents hashPtr d))
              | none =>
                  (List.replicate slotType.preimgSize (0 : ZMod p),
                    allocateImgForSlot poseidon slotType
                      (List.replicate slotType.preimgSize (0 : ZMod p))) := by
  refine ⟨allocateSlotsLoop hashPtr poseidon slotType preimgData, ?_, ?_, ?_⟩
  · rw [allocateSlots, if_pos hlen]
  · rw [allocateSlotsLoop_length, hlen]
  · intro i hi
    exact allocateSlotsLoop_getD hashPtr poseidon slotType preimgData i (hlen ▸ hi)

theorem allocateSlots_spec_witness :
    ∃ out,
      allocateSlots (fun n : Nat => ((n : ZMod 13), (n : ZMod 13) + 1))
          (fun _ l => l.foldr (· + ·) 0)
          [some (PreimageData.fPair (3 : ZMod 13) 9), none] SlotType.lessThan 2
        = some out
      ∧ out.length = 2 := by
  obtain ⟨out, h1, h2, _⟩ :=
    allocateSlots_spec (fun n : Nat => ((n : ZMod 13), (n : ZMod 13) + 1))
      (fun _ l => l.foldr (· + ·) 0)
      [some (PreimageData.fPair (3 : ZMod 13) 9), none] SlotType.lessThan 2 rfl
  exact ⟨out, h1, h2⟩

/-! ### The LEM intermediate representation (`src/lem`, as used by
`src/lem/circuit.rs`) -/

/-- Modelled from the spec: the static slot counters of a function and the
slot cursor threaded through synthesis (`SlotsCounter` of the slot module),
one counter per slot type. -/
structure SlotsCounter where
  hash2 : Nat
  hash3 : Nat
  hash4 : Nat
  commitment : Nat
  lessThan : Nat
deriving DecidableEq

/-- Modelled from the spec: the per-type maximum of two slot counters, used to
reconcile branch cursors at a join. -/
def SlotsCounter.max (a b : SlotsCounter) : SlotsCounter :=
  ⟨Nat.max a.hash2 b.hash2, Nat.max a.hash3 b.hash3, Nat.max a.hash4 b.hash4,
    Nat.max a.commitment b.commitment, Nat.max a.lessThan b.lessThan⟩

/-- Componentwise order on slot counters. -/
def SlotsCounter.le (a b : SlotsCounter) : Prop :=
  a.hash2 ≤ b.hash2 ∧ a.hash3 ≤ b.hash3 ∧ a.hash4 ≤ b.hash4
    ∧ a.commitment ≤ b.commitment ∧ a.lessThan ≤ b.lessThan

instance (a b : SlotsCounter) : Decidable (SlotsCounter.le a b) := by
  unfold SlotsCounter.le
  infer_instance

/-- Literals of the language (`lem::Lit`): numbers, strings and symbols.
Modelled from the spec: the literal payloads are abstract names here, since
their store representation lives outside the sources. -/
inductive Lit where
  | num (n : Nat)
  | str (s : List Nat)
  | sym (s : List Nat)
deriving DecidableEq

/-- Modelled from the spec: the field encodings consulted by `synthesize` and
`num_constraints` — tags in the AST below are identified with their field
values (tag packing is lossless), and this environment supplies the residues
of the distinguished tags `Num`, `Comm` and `Sym` together with the store
encoding of literals (`lit.to_ptr` tag and `hash_ptr` hash). -/
structure ConstEnv where
  numTag : Nat
  commTag : Nat
  symTag : Nat
  litTag : Lit → Nat
  litHash : Lit → Nat

mutual
/-- Embeds `lem::Op` (the fields kept are the ones `synthesize` and
`num_constraints` consult; variables are names, tags their field values). -/
inductive Op where
  | call (out : List Nat) (func : Func) (inp : List Nat)
  | hash2 (img : Nat) (tag : Nat) (preimg : List Nat)
  | hash3 (img : Nat) (tag : Nat) (preimg : List Nat)
  | hash4 (img : Nat) (tag : Nat) (preimg : List Nat)
  | unhash2 (preimg : List Nat) (img : Nat)
  | unhash3 (preimg : List Nat) (img : Nat)
  | unhash4 (preimg : List Nat) (img : Nat)
  | null (tgt : Nat) (tag : Nat)
  | lit (tgt : Nat) (l : Lit)
  | cast (tgt : Nat) (tag : Nat) (src : Nat)
  | eqTag (tgt a b : Nat)
  | eqVal (tgt a b : Nat)
  | add (tgt a b : Nat)
  | sub (tgt a b : Nat)
  | mul (tgt a b : Nat)
  | div (tgt a b : Nat)
  | lt (tgt a b : Nat)
  | trunc (tgt a : Nat) (n : Nat)
  | divRem64 (tgt1 tgt2 a b : Nat)
  | emit
  | hide (tgt sec pay : Nat)
  | opn (sec pay comm : Nat)
/-- Embeds `lem::Block`: a list of operations and one terminator. -/
inductive Block where
  | mk (ops : List Op) (ctrl : Ctrl)
/-- Embeds `lem::Ctrl`: return, two-way equality branch, or multiway match
with ordered cases and an optional default. -/
inductive Ctrl where
  | ret (vars : List Nat)
  | ifEq (x y : Nat) (eqBlock elseBlock : Block)
  | matchTag (v : Nat) (cases : List (Nat × Block)) (dflt : Option Block)
  | matchVal (v : Nat) (cases : List (Lit × Block)) (dflt : Option Block)
/-- Embeds `lem::Func`: input parameters, body and static slot counts. -/
inductive Func where
  | mk (inputParams : List Nat) (body : Block) (slot : SlotsCounter)
end

def Func.body : Func → Block
  | .mk _ b _ => b

def Func.slot : Func → SlotsCounter
  | .mk _ _ s => s

/-! ### Slot cursor evolution (`Func::synthesize`, `next_slot`) -/

/-- Left fold of the per-type maximum over a list of branch cursors, as at the
join of a match terminator. -/
def foldMax : List SlotsCounter → SlotsCounter → SlotsCounter
  | [], acc => acc
  | c :: rest, acc => foldMax rest (acc.max c)

mutual
/-- Slot cursor after a block: operations consume slots in order, then the
terminator runs.  Every branch of every terminator is traversed, so this is a
function of the block alone — no frame data enters. -/
def blockSlots : Block → SlotsCounter → SlotsCounter
  | .mk ops ctrl, s => ctrlSlots ctrl (opsSlots ops s)
def opsSlots : List Op → SlotsCounter → SlotsCounter
  | [], s => s
  | o :: os, s => opsSlots os (opSlots o s)
/-- Slots consumed by one operation: the hash and unhash operations consume a
slot of their arity, `Lt` a less-than slot, `Hide` and `Open` a commitment
slot, and an inlined `Call` consumes whatever the callee body consumes. -/
def opSlots : Op → SlotsCounter → SlotsCounter
  | .call _ (.mk _ body _) _, s => blockSlots body s
  | .hash2 .., s | .unhash2 .., s => { s with hash2 := s.hash2 + 1 }
  | .hash3 .., s | .unhash3 .., s => { s with hash3 := s.hash3 + 1 }
  | .hash4 .., s | .unhash4 .., s => { s with hash4 := s.hash4 + 1 }
  | .lt .., s => { s with lessThan := s.lessThan + 1 }
  | .hide .., s | .opn .., s => { s with commitment := s.commitment + 1 }
  | _, s => s
/-- Slot cursor after a terminator.  `IfEq` runs the equal branch on a copy of
the cursor and the else branch on the cursor itself, then takes the maximum;
the match terminators run every case on its own copy, the default on the
cursor itself, and fold the maximum over the collected branch cursors. -/
def ctrlSlots : Ctrl → SlotsCounter → SlotsCounter
  | .ret _, s => s
  | .ifEq _ _ eqBlock elseBlock, s =>
      SlotsCounter.max (blockSlots elseBlock s) (blockSlots eqBlock s)
  | .matchTag _ cases dflt, s =>
      foldMax (casesSlotsTag cases s)
        (match dflt with
          | some d => blockSlots d s
          | none => s)
  | .matchVal _ cases dflt, s =>
      foldMax (casesSlotsVal cases s)
        (match dflt with
          | some d => blockSlots d s
          | none => s)
def casesSlotsTag : List (Nat × Block) → SlotsCounter → List SlotsCounter
  | [], _ => []
  | (_, b) :: rest, s => blockSlots b s :: casesSlotsTag rest s
def casesSlotsVal : List (Lit × Block) → SlotsCounter → List SlotsCounter
  | [], _ => []
  | (_, b) :: rest, s => blockSlots b s :: casesSlotsVal rest s
end

theorem SlotsCounter.le_refl (a : SlotsCounter) : a.le a := by
  unfold SlotsCounter.le
  omega

theorem SlotsCounter.le_trans {a b c : SlotsCounter} (h1 : a.le b) (h2 : b.le c) :
    a.le c := by
  unfold SlotsCounter.le at *
  omega

theorem SlotsCounter.le_max_left (a b : SlotsCounter) : a.le (a.max b) := by
  unfold SlotsCounter.le SlotsCounter.max
  refine ⟨?_, ?_, ?_, ?_, ?_⟩ <;> exact Nat.le_max_left _ _

theorem SlotsCounter.le_max_right (a b : SlotsCounter) : b.le (a.max b) := by
  unfold SlotsCounter.le SlotsCounter.max
  refine ⟨?_, ?_, ?_, ?_, ?_⟩ <;> exact Nat.le_max_right _ _

theorem SlotsCounter.max_le {a b c : SlotsCounter} (h1 : a.le c) (h2 : b.le c) :
    (a.max b).le c := by
  unfold SlotsCounter.le SlotsCounter.max at *
  exact ⟨Nat.max_le.mpr ⟨h1.1, h2.1⟩, Nat.max_le.mpr ⟨h1.2.1, h2.2.1⟩,
    Nat.max_le.mpr ⟨h1.2.2.1, h2.2.2.1⟩, Nat.max_le.mpr ⟨h1.2.2.2.1, h2.2.2.2.1⟩,
    Nat.max_le.mpr ⟨h1.2.2.2.2, h2.2.2.2.2⟩⟩

theorem SlotsCounter.max_comm (a b : SlotsCounter) : a.max b = b.max a := by
  unfold SlotsCounter.max
  simp [Nat.max_comm]

theorem foldMax_le_acc (l : List SlotsCounter) (acc : SlotsCounter) :
    acc.le (foldMax l acc) := by
  induction l generalizing acc with
  | nil => exact SlotsCounter.le_refl acc
  | cons c rest ih =>
    exact SlotsCounter.le_trans (SlotsCounter.le_max_left acc c) (ih (acc.max c))

theorem foldMax_mem_le (l : List SlotsCounter) (acc c : SlotsCounter) (hc : c ∈ l) :
    c.le (foldMax l acc) := by
  induction l generalizing acc with
  | nil => exact absurd hc (by simp)
  | cons d rest ih =>
    rcases List.mem_cons.mp hc with hd | htail
    · subst hd
      exact SlotsCounter.le_trans (SlotsCounter.le_max_right acc c) (foldMax_le_acc rest _)
    · exact ih (acc.max d) htail

theorem foldMax_lub (l : List SlotsCounter) (acc u : SlotsCounter)
    (hacc : acc.le u) (hl : ∀ c ∈ l, c.le u) : (foldMax l acc).le u := by
  induction l generalizing acc with
  | nil => exact hacc
  | cons c rest ih =>
    refine ih (acc.max c) (SlotsCounter.max_le hacc (hl c (by simp))) ?_
    intro d hd
    exact hl d (by simp [hd])

theorem casesSlotsTag_mem (cases : List (Nat × Block)) (s : SlotsCounter)
    {c : Nat × Block} (hc : c ∈ cases) : blockSlots c.2 s ∈ casesSlotsTag cases s := by
  induction cases with
  | nil => exact absurd hc (by simp)
  | cons d rest ih =>
    rcases List.mem_cons.mp hc with hd | htail
    · subst hd
      simp [casesSlotsTag]
    · simp [casesSlotsTag, ih htail]

theorem casesSlotsVal_mem (cases : List (Lit × Block)) (s : SlotsCounter)
    {c : Lit × Block} (hc : c ∈ cases) : blockSlots c.2 s ∈ casesSlotsVal cases s := by
  induction cases with
  | nil => exact absurd hc (by simp)
  | cons d rest ih =>
    rcases List.mem_cons.mp hc with hd | htail
    · subst hd
      simp [casesSlotsVal]
    · simp [casesSlotsVal, ih htail]

theorem casesSlotsTag_all (cases : List (Nat × Block)) (s : SlotsCounter)
    {c : SlotsCounter} (hc : c ∈ casesSlotsTag cases s) :
    ∃ d ∈ cases, c = blockSlots d.2 s := by
  induction cases with
  | nil => exact absurd hc (by simp [casesSlotsTag])
  | cons d rest ih =>
    rcases List.mem_cons.mp (by simpa [casesSlotsTag] using hc) with hd | htail
    · exact ⟨d, by simp, hd⟩
    · obtain ⟨e, he, heq⟩ := ih htail
      exact ⟨e, by simp [he], heq⟩

theorem casesSlotsVal_all (cases : List (Lit × Block)) (s : SlotsCounter)
    {c : SlotsCounter} (hc : c ∈ casesSlotsVal cases s) :
    ∃ d ∈ cases, c = blockSlots d.2 s := by
  induction cases with
  | nil => exact absurd hc (by simp [casesSlotsVal])
  | cons d rest ih =>
    rcases List.mem_cons.mp (by simpa [casesSlotsVal] using hc) with hd | htail
    · exact ⟨d, by simp, hd⟩
    · obtain ⟨e, he, heq⟩ := ih htail
      exact ⟨e, by simp [he], heq⟩

mutual
theorem blockSlots_mono : ∀ (b : Block) (s : SlotsCounter), s.le (blockSlots b s)
  | .mk ops ctrl, s => by
    rw [blockSlots]
    exact SlotsCounter.le_trans (opsSlots_mono ops s) (ctrlSlots_mono ctrl (opsSlots ops s))
theorem opsSlots_mono : ∀ (l : List Op) (s : SlotsCounter), s.le (opsSlots l s)
  | [], s => SlotsCounter.le_refl s
  | o :: os, s => by
    rw [opsSlots]
    exact SlotsCounter.le_trans (opSlots_mono o s) (opsSlots_mono os (opSlots o s))
theorem opSlots_mono : ∀ (o : Op) (s : SlotsCounter), s.le (opSlots o s)
  | .call _ (.mk _ body _) _, s => by
    rw [opSlots]
    exact blockSlots_mono body s
  | .hash2 .., s | .unhash2 .., s => by unfold SlotsCounter.le; simp [opSlots]
  | .hash3 .., s | .unhash3 .., s => by unfold SlotsCounter.le; simp [opSlots]
  | .hash4 .., s | .unhash4 .., s => by unfold SlotsCounter.le; simp [opSlots]
  | .lt .., s => by unfold SlotsCounter.le; simp [opSlots]
  | .hide .., s | .opn .., s => by unfold SlotsCounter.le; simp [opSlots]
  | .null .., s | .lit .., s | .cast .., s | .eqTag .., s | .eqVal .., s
  | .add .., s | .sub .., s | .mul .., s | .div .., s | .trunc .., s
  | .divRem64 .., s | .emit, s => by simp [opSlots, SlotsCounter.le]
theorem ctrlSlots_mono : ∀ (c : Ctrl) (s : SlotsCounter), s.le (ctrlSlots c s)
  | .ret _, s => SlotsCounter.le_refl s
  | .ifEq _ _ eqBlock elseBlock, s => by
    rw [ctrlSlots]
    exact SlotsCounter.le_trans (blockSlots_mono elseBlock s)
      (SlotsCounter.le_max_left (blockSlots elseBlock s) (blockSlots eqBlock s))
  | .matchTag _ cases dflt, s => by
    rcases dflt with _ | d
    · rw [ctrlSlots]
      exact foldMax_le_acc (casesSlotsTag cases s) s
    · rw [ctrlSlots]
      exact SlotsCounter.le_trans (blockSlots_mono d s)
        (foldMax_le_acc (casesSlotsTag cases s) (blockSlots d s))
  | .matchVal _ cases dflt, s => by
    rcases dflt with _ | d
    · rw [ctrlSlots]
      exact foldMax_le_acc (casesSlotsVal cases s) s
    · rw [ctrlSlots]
      exact SlotsCounter.le_trans (blockSlots_mono d s)
        (foldMax_le_acc (casesSlotsVal cases s) (blockSlots d s))
end

/-- Claim C5: every branching terminator synthesizes each branch with an
independent copy of the incoming slot cursor, and the outer cursor after the
join is the per-type maximum over all branch cursors: for `IfEq` it equals
the maximum of the two branch cursors; for the match terminators it is an
upper bound of every case cursor and of the default cursor (all evaluated
from the same incoming cursor) and the least such bound that dominates the
incoming cursor.  The cursor evolution is a function of the block alone
(frames never enter these definitions), so the cursor after a branching
construct, and the slot indices consumed afterwards, depend only on the
`Func`; the first conjunct records that the cursor never decreases. -/
theorem branch_cursor_reconciliation :
    (∀ b s, SlotsCounter.le s (blockSlots b s))
      ∧ (∀ x y b1 b2 s, ctrlSlots (Ctrl.ifEq x y b1 b2) s
          = SlotsCounter.max (blockSlots b1 s) (blockSlots b2 s))
      ∧ (∀ v cases dflt s, ∀ c ∈ cases, SlotsCounter.le (blockSlots c.2 s)
          (ctrlSlots (Ctrl.matchTag v cases dflt) s))
      ∧ (∀ v cases d s, SlotsCounter.le (blockSlots d s)
          (ctrlSlots (Ctrl.matchTag v cases (some d)) s))
      ∧ (∀ v cases dflt s u, SlotsCounter.le s u
          → (∀ c ∈ cases, SlotsCounter.le (blockSlots c.2 s) u)
          → (∀ d, dflt = some d → SlotsCounter.le (blockSlots d s) u)
          → SlotsCounter.le (ctrlSlots (Ctrl.matchTag v cases dflt) s) u)
      ∧ (∀ v cases dflt s, ∀ c ∈ cases, SlotsCounter.le (blockSlots c.2 s)
          (ctrlSlots (Ctrl.matchVal v cases dflt) s))
      ∧ (∀ v cases d s, SlotsCounter.le (blockSlots d s)
          (ctrlSlots (Ctrl.matchVal v cases (some d)) s))
      ∧ (∀ v cases dflt s u, SlotsCounter.le s u
          → (∀ c ∈ cases, SlotsCounter.le (blockSlots c.2 s) u)
          → (∀ d, dflt = some d → SlotsCounter.le (blockSlots d s) u)
          → SlotsCounter.le (ctrlSlots (Ctrl.matchVal v cases dflt) s) u) := by
  refine ⟨fun b s => blockSlots_mono b s, ?_, ?_, ?_, ?_, ?_, ?_, ?_⟩
  · intro x y b1 b2 s
    rw [ctrlSlots, SlotsCounter.max_comm]
  · intro v cases dflt s c hc
    have hmem := casesSlotsTag_mem cases s hc
    rcases dflt with _ | d <;> rw [ctrlSlots] <;> exact foldMax_mem_le _ _ _ hmem
  · intro v cases d s
    rw [ctrlSlots]
    exact foldMax_le_acc (casesSlotsTag cases s) (blockSlots d s)
  · intro v cases dflt s u hs hcases hdflt
    rcases dflt with _ | d
    · rw [ctrlSlots]
      refine foldMax_lub _ _ _ hs ?_
      intro c' hc'
      obtain ⟨e, he, heq⟩ := casesSlotsTag_all cases s hc'
      rw [heq]
      exact hcases e he
    · rw [ctrlSlots]
      refine foldMax_lub _ _ _ (hdflt d rfl) ?_
      intro c' hc'
      obtain ⟨e, he, heq⟩ := casesSlotsTag_all cases s hc'
      rw [heq]
      exact hcases e he
  · intro v cases dflt s c hc
    have hmem := casesSlotsVal_mem cases s hc
    rcases dflt with _ | d <;> rw [ctrlSlots] <;> exact foldMax_mem_le _ _ _ hmem
  · intro v cases d s
    rw [ctrlSlots]
    exact foldMax_le_acc (casesSlotsVal cases s) (blockSlots d s)
  · intro v cases dflt s u hs hcases hdflt
    rcases dflt with _ | d
    · rw [ctrlSlots]
      refine foldMax_lub _ _ _ hs ?_
      intro c' hc'
      obtain ⟨e, he, heq⟩ := casesSlotsVal_all cases s hc'
      rw [heq]
      exact hcases e he
    · rw [ctrlSlots]
      refine foldMax_lub _ _ _ (hdflt d rfl) ?_
      intro c' hc'
      obtain ⟨e, he, heq⟩ := casesSlotsVal_all cases s hc'
      rw [heq]
      exact hcases e he

theorem branch_cursor_reconciliation_witness :
    SlotsCounter.le (blockSlots (Block.mk [Op.lt 2 0 1] (Ctrl.ret [0])) ⟨0, 0, 0, 0, 0⟩)
      (ctrlSlots
        (Ctrl.matchTag 0 [(7, Block.mk [Op.lt 2 0 1] (Ctrl.ret [0]))] none)
        ⟨0, 0, 0, 0, 0⟩) :=
  branch_cursor_reconciliation.2.2.1 0
    [(7, Block.mk [Op.lt 2 0 1] (Ctrl.ret [0]))] none ⟨0, 0, 0, 0, 0⟩
    (7, Block.mk [Op.lt 2 0 1] (Ctrl.ret [0])) (by simp)

/-! ### Constraint counting: the estimator (`Func::num_constraints`) and the
actual emission of `Func::synthesize`.

The per-gadget constraint costs below are modelled from the spec, since the
gadget library (`crate::circuit::gadgets`) is outside the sources: each
implication gadget and each enforced linear or product relation is one
constraint, an allocated bit costs its booleanity constraint, an equality
test allocates a difference, a bit and two product constraints, a zero test
a bit and two constraints, strict bit decomposition of a 255-bit element
costs one constraint per bit plus the packing checks, a 64-bit fit check
costs 64 booleanity constraints plus one packing implication, and the
fixed-arity Poseidon hashes cost the tabulated per-slot amounts. -/

/-- Modelled from the spec: booleanity constraint of `AllocatedBit::alloc`. -/
def cAllocatedBit : Nat := 1

/-- Modelled from the spec: one constraint per implication gadget
(`implies_equal`, `implies_unequal` and their `_const` versions). -/
def cImplies : Nat := 1

/-- Modelled from the spec: `boolean_to_num`. -/
def cBooleanToNum : Nat := 1

/-- Modelled from the spec: `alloc_equal` (difference, bit, two products). -/
def cAllocEqual : Nat := 4

/-- Modelled from the spec: `alloc_is_zero` (bit and two products). -/
def cAllocIsZero : Nat := 3

/-- Modelled from the spec: `pick`. -/
def cPick : Nat := 1

/-- Modelled from the spec: one constraint for each of `add`, `sub`, `mul`
and `div`. -/
def cLinear : Nat := 1

/-- Modelled from the spec: `to_bits_le_strict` on a 255-bit field element. -/
def cToBitsLeStrict : Nat := 388

/-- Modelled from the spec: `enforce_pack`. -/
def cEnforcePack : Nat := 1

/-- Modelled from the spec: `implies_u64` (64 bit allocations plus the packing
implication). -/
def cImpliesU64 : Nat := 65

/-- Modelled from the spec: `enforce_product_and_sum`. -/
def cEnforceProductAndSum : Nat := 1

/-- Modelled from the spec: `enforce_selector_with_premise`. -/
def cEnforceSelector : Nat := 1

/-- Modelled from the spec: `implies_ptr_equal` (tag and hash). -/
def cImpliesPtrEqual : Nat := 2

/-- Modelled from the spec: Poseidon hash gadgets of widths 4, 6, 8 and 3. -/
def cPoseidon4 : Nat := 289
def cPoseidon6 : Nat := 337
def cPoseidon8 : Nat := 388
def cPoseidon3 : Nat := 265

/-- Modelled from the spec: `allocate_is_negative`. -/
def cAllocIsNegative : Nat := 389

mutual
/-- Embeds the count returned by the `recurse` closure of
`Func::num_constraints` (globals are collected separately below). -/
def estBlock : Block → Nat
  | .mk ops ctrl => estOps ops + estCtrl ctrl
def estOps : List Op → Nat
  | [] => 0
  | o :: os => estOp o + estOps os
/-- Per-operation table of `Func::num_constraints`. -/
def estOp : Op → Nat
  | .call _ (.mk _ body _) _ => estBlock body
  | .null .. => 0
  | .lit .. => 0
  | .cast .. => 0
  | .eqTag .. | .eqVal .. => 5
  | .add .. | .sub .. | .mul .. => 1
  | .div .. => 5
  | .lt .. => 2
  | .trunc .. => 389
  | .divRem64 .. => 197
  | .emit => 0
  | .hash2 .. => 4
  | .hash3 .. => 6
  | .hash4 .. => 8
  | .unhash2 .. | .unhash3 .. | .unhash4 .. => 1
  | .hide .. => 4
  | .opn .. => 2
/-- Per-terminator counts of `Func::num_constraints`. -/
def estCtrl : Ctrl → Nat
  | .ret vars => 2 * vars.length
  | .ifEq _ _ eqBlock elseBlock => 5 + estBlock eqBlock + estBlock elseBlock
  | .matchTag _ cases dflt =>
      2 * cases.length + 1 + estCasesTag cases +
        (match dflt with
          | some d => 1 + cases.length + estBlock d
          | none => 0)
  | .matchVal _ cases dflt =>
      2 * cases.length + 1 + estCasesVal cases +
        (match dflt with
          | some d => 1 + cases.length + estBlock d
          | none => 0)
def estCasesTag : List (Nat × Block) → Nat
  | [] => 0
  | (_, b) :: rest => estBlock b + estCasesTag rest
def estCasesVal : List (Lit × Block) → Nat
  | [] => 0
  | (_, b) :: rest => estBlock b + estCasesVal rest
end

mutual
/-- Embeds the `globals` set that `Func::num_constraints` collects: one field
value per inserted global, per the per-operation arms of its source. -/
def estGlobalsBlock (env : ConstEnv) : Block → Finset Nat
  | .mk ops ctrl => estGlobalsOps env ops ∪ estGlobalsCtrl env ctrl
def estGlobalsOps (env : ConstEnv) : List Op → Finset Nat
  | [] => ∅
  | o :: os => estGlobalsOp env o ∪ estGlobalsOps env os
/-- Globals inserted per operation by `Func::num_constraints`.  Note the two
arms that diverge from `synthesize`: `Lit` inserts the `Sym` tag regardless of
the literal kind, and `Div` inserts only the constant one. -/
def estGlobalsOp (env : ConstEnv) : Op → Finset Nat
  | .call _ (.mk _ body _) _ => estGlobalsBlock env body
  | .null _ tag => {tag, 0}
  | .lit _ l => {env.symTag, env.litHash l}
  | .cast _ tag _ => {tag}
  | .eqTag .. | .eqVal .. => {env.numTag}
  | .add .. | .sub .. | .mul .. => {env.numTag}
  | .div .. => {1}
  | .lt .. => {env.numTag}
  | .trunc .. => {env.numTag}
  | .divRem64 .. => {env.numTag}
  | .emit => ∅
  | .hash2 _ tag _ | .hash3 _ tag _ | .hash4 _ tag _ => {tag}
  | .unhash2 .. | .unhash3 .. | .unhash4 .. => ∅
  | .hide .. => {env.numTag, env.commTag}
  | .opn .. => {env.numTag, env.commTag}
def estGlobalsCtrl (env : ConstEnv) : Ctrl → Finset Nat
  | .ret _ => ∅
  | .ifEq _ _ eqBlock elseBlock => estGlobalsBlock env eqBlock ∪ estGlobalsBlock env elseBlock
  | .matchTag _ cases dflt =>
      estGlobalsCasesTag env cases ∪
        (match dflt with
          | some d => estGlobalsBlock env d
          | none => ∅)
  | .matchVal _ cases dflt =>
      estGlobalsCasesVal env cases ∪
        (match dflt with
          | some d => estGlobalsBlock env d
          | none => ∅)
def estGlobalsCasesTag (env : ConstEnv) : List (Nat × Block) → Finset Nat
  | [] => ∅
  | (_, b) :: rest => estGlobalsBlock env b ∪ estGlobalsCasesTag env rest
def estGlobalsCasesVal (env : ConstEnv) : List (Lit × Block) → Finset Nat
  | [] => ∅
  | (_, b) :: rest => estGlobalsBlock env b ∪ estGlobalsCasesVal env rest
end

mutual
/-- Constraints emitted by the `recurse` closure of `Func::synthesize` for a
block, excluding the constant allocations of the global allocator (collected
separately below) — witness allocations (`allocate_num`) cost nothing. -/
def synthBlock : Block → Nat
  | .mk ops ctrl => synthOps ops + synthCtrl ctrl
def synthOps : List Op → Nat
  | [] => 0
  | o :: os => synthOp o + synthOps os
/-- Gadget calls per operation, following each arm of the `synthesize` match:
the hash helper adds two implications per preimage pointer, the unhash helper
one for the image, `EqTag`/`EqVal` an equality test and a conversion, `Div` a
zero test, a pick and a division, `Lt` two implications against the slot,
`Trunc` a strict decomposition plus packing, `DivRem64` a subtraction, three
64-bit fits and the unconditional product-and-sum, `Hide` four and `Open` two
implications, and a `Call` inlines the callee body. -/
def synthOp : Op → Nat
  | .call _ (.mk _ body _) _ => synthBlock body
  | .hash2 _ _ preimg => 2 * preimg.length * cImplies
  | .hash3 _ _ preimg => 2 * preimg.length * cImplies
  | .hash4 _ _ preimg => 2 * preimg.length * cImplies
  | .unhash2 .. | .unhash3 .. | .unhash4 .. => cImplies
  | .null .. => 0
  | .lit .. => 0
  | .cast .. => 0
  | .eqTag .. | .eqVal .. => cAllocEqual + cBooleanToNum
  | .add .. | .sub .. | .mul .. => cLinear
  | .div .. => cAllocIsZero + cPick + cLinear
  | .lt .. => 2 * cImplies
  | .trunc .. => cToBitsLeStrict + cEnforcePack
  | .divRem64 .. => cLinear + 3 * cImpliesU64 + cEnforceProductAndSum
  | .emit => 0
  | .hide .. => 4 * cImplies
  | .opn .. => 2 * cImplies
/-- Constraints per terminator in `synthesize`: a return implies pointer
equality per output; `IfEq` allocates two bits, two implications and the
selector constraint and recurses into both branches; a match allocates one
bit and one implication per case, for a default one bit plus one inequality
implication per case, the selector constraint, and recurses everywhere. -/
def synthCtrl : Ctrl → Nat
  | .ret vars => vars.length * cImpliesPtrEqual
  | .ifEq _ _ eqBlock elseBlock =>
      2 * cAllocatedBit + 2 * cImplies + synthBlock eqBlock + synthBlock elseBlock
        + cEnforceSelector
  | .matchTag _ cases dflt =>
      (cAllocatedBit + cImplies) * cases.length + synthCasesTag cases +
        (match dflt with
          | some d => cAllocatedBit + cases.length * cImplies + synthBlock d
          | none => 0)
        + cEnforceSelector
  | .matchVal _ cases dflt =>
      (cAllocatedBit + cImplies) * cases.length + synthCasesVal cases +
        (match dflt with
          | some d => cAllocatedBit + cases.length * cImplies + synthBlock d
          | none => 0)
        + cEnforceSelector
def synthCasesTag : List (Nat × Block) → Nat
  | [] => 0
  | (_, b) :: rest => synthBlock b + synthCasesTag rest
def synthCasesVal : List (Lit × Block) → Nat
  | [] => 0
  | (_, b) :: rest => synthBlock b + synthCasesVal rest
end

mutual
/-- The set of field constants requested through
`GlobalAllocator::get_or_alloc_const` during `synthesize` of a block.  Each
distinct value costs exactly one constant allocation over the whole call
(claim C7), so the total constant cost is the cardinality of this set. -/
def synthGlobalsBlock (env : ConstEnv) : Block → Finset Nat
  | .mk ops ctrl => synthGlobalsOps env ops ∪ synthGlobalsCtrl env ctrl
def synthGlobalsOps (env : ConstEnv) : List Op → Finset Nat
  | [] => ∅
  | o :: os => synthGlobalsOp env o ∪ synthGlobalsOps env os
/-- Constants requested per operation by `synthesize`: the hash helpers the
image tag, `Null` its tag and zero, `Lit` the tag and hash of the literal
pointer, `Cast` its tag, the arithmetic and comparison results the `Num` tag,
`Div` additionally the constant one, `Hide` and `Open` the `Num` and `Comm`
tags. -/
def synthGlobalsOp (env : ConstEnv) : Op → Finset Nat
  | .call _ (.mk _ body _) _ => synthGlobalsBlock env body
  | .hash2 _ tag _ | .hash3 _ tag _ | .hash4 _ tag _ => {tag}
  | .unhash2 .. | .unhash3 .. | .unhash4 .. => ∅
  | .null _ tag => {tag, 0}
  | .lit _ l => {env.litTag l, env.litHash l}
  | .cast _ tag _ => {tag}
  | .eqTag .. | .eqVal .. => {env.numTag}
  | .add .. | .sub .. | .mul .. => {env.numTag}
  | .div .. => {1, env.numTag}
  | .lt .. => {env.numTag}
  | .trunc .. => {env.numTag}
  | .divRem64 .. => {env.numTag}
  | .emit => ∅
  | .hide .. => {env.numTag, env.commTag}
  | .opn .. => {env.commTag, env.numTag}
def synthGlobalsCtrl (env : ConstEnv) : Ctrl → Finset Nat
  | .ret _ => ∅
  | .ifEq _ _ eqBlock elseBlock =>
      synthGlobalsBlock env eqBlock ∪ synthGlobalsBlock env elseBlock
  | .matchTag _ cases dflt =>
      synthGlobalsCasesTag env cases ∪
        (match dflt with
          | some d => synthGlobalsBlock env d
          | none => ∅)
  | .matchVal _ cases dflt =>
      synthGlobalsCasesVal env cases ∪
        (match dflt with
          | some d => synthGlobalsBlock env d
          | none => ∅)
def synthGlobalsCasesTag (env : ConstEnv) : List (Nat × Block) → Finset Nat
  | [] => ∅
  | (_, b) :: rest => synthGlobalsBlock env b ∪ synthGlobalsCasesTag env rest
def synthGlobalsCasesVal (env : ConstEnv) : List (Lit × Block) → Finset Nat
  | [] => ∅
  | (_, b) :: rest => synthGlobalsBlock env b ∪ synthGlobalsCasesVal env rest
end

/-- Per-slot constraint cost of the preallocation pass of `synthesize`: the
preimage components are witness allocations (free), the image is one Poseidon
gadget of the matching width, or for less-than slots a subtraction, a sign
bit and a conversion. -/
def synthSlotConstraints (s : SlotsCounter) : Nat :=
  cPoseidon4 * s.hash2 + cPoseidon6 * s.hash3 + cPoseidon8 * s.hash4
    + cPoseidon3 * s.commitment
    + (cLinear + cAllocIsNegative + cBooleanToNum) * s.lessThan

/-- The fixed per-slot costs tabulated at the end of `Func::num_constraints`. -/
def estSlotConstraints (s : SlotsCounter) : Nat :=
  289 * s.hash2 + 337 * s.hash3 + 388 * s.hash4 + 265 * s.commitment
    + 391 * s.lessThan

/-- Embeds `Func::num_constraints`: slot costs, the body count and one
constraint per distinct collected global. -/
def numConstraints (env : ConstEnv) : Func → Nat
  | .mk _ body s => estSlotConstraints s + estBlock body + (estGlobalsBlock env body).card

/-- The number of constraints `Func::synthesize` actually emits for any frame
whose preimage counts match the slot counts: slot costs, body gadget costs and
one constant allocation per distinct requested global.  No frame data occurs
here because `synthesize` traverses every branch and emits the same gadgets
regardless of the witness values. -/
def synthConstraints (env : ConstEnv) : Func → Nat
  | .mk _ body s =>
      synthSlotConstraints s + synthBlock body + (synthGlobalsBlock env body).card

/-- A concrete environment: tag residues for `Num`, `Comm`, `Sym` as distinct
small values ( tag packing is injective), literal encodings irrelevant here. -/
def sampleEnv : ConstEnv :=
  ⟨5, 9, 3, fun _ => 0, fun _ => 0⟩

/-- The failing input for claim C1: a function taking two numeric arguments
whose body performs one `Div` and returns nothing, with zero slots. -/
def divFunc : Func :=
  .mk [0, 1] (.mk [.div 2 0 1] (.ret [])) ⟨0, 0, 0, 0, 0⟩

/-- Claim C1 fails on the code: on `divFunc`, `num_constraints` returns 6
(five `Div` constraints plus one global, since its `Div` arm records only the
constant one), while `synthesize` emits 7 constraints for every compatible
frame (the same five gadget constraints, but constant allocations for both
the constant one and the `Num` result tag).  The `Lit` arm diverges the same
way, recording the `Sym` tag where `synthesize` allocates the literal tag. -/
theorem numConstraints_mismatch_on_div :
    numConstraints sampleEnv divFunc = 6 ∧ synthConstraints sampleEnv divFunc = 7 := by
  decide

/-! ### Slot-count assertions (`Func::allocate_slots` as called from
`Func::synthesize`) -/

/-- The preimage entry lists of a `Frame`; only presence matters for the
constraint count, so the payloads are elided. -/
structure Preimages where
  hash2 : List (Option Unit)
  hash3 : List (Option Unit)
  hash4 : List (Option Unit)
  commitment : List (Option Unit)
  lessThan : List (Option Unit)

/-- One `allocate_slots` call viewed through the sink: the length assertion
fires first, before any allocation of this slot type, and `Except.error`
carries the number of constraints already on the sink at the panic; on
success the per-slot image constraints of this type are added. -/
def allocSlotsStep (len numSlots perSlotCost emitted : Nat) : Except Nat Nat :=
  if len = numSlots then .ok (emitted + perSlotCost * numSlots) else .error emitted

/-- Embeds the prefix structure of `Func::synthesize`: the input and output
allocations emit no constraints, the five `allocate_slots` calls run in the
fixed order hash2, hash3, hash4, commitment, less_than, and only then is the
body traversed. -/
def synthRun (env : ConstEnv) (f : Func) (pre : Preimages) : Except Nat Nat :=
  match f with
  | .mk _ body s =>
    match allocSlotsStep pre.hash2.length s.hash2 cPoseidon4 0 with
    | .error e => .error e
    | .ok e1 =>
      match allocSlotsStep pre.hash3.length s.hash3 cPoseidon6 e1 with
      | .error e => .error e
      | .ok e2 =>
        match allocSlotsStep pre.hash4.length s.hash4 cPoseidon8 e2 with
        | .error e => .error e
        | .ok e3 =>
          match allocSlotsStep pre.commitment.length s.commitment cPoseidon3 e3 with
          | .error e => .error e
          | .ok e4 =>
            match allocSlotsStep pre.lessThan.length s.lessThan
                (cLinear + cAllocIsNegative + cBooleanToNum) e4 with
            | .error e => .error e
            | .ok e5 => .ok (e5 + synthBlock body + (synthGlobalsBlock env body).card)

/-- The invariant of §3: the frame preimage list of every slot type has
exactly the static slot count of the function. -/
def slotCountsMatch (f : Func) (pre : Preimages) : Prop :=
  pre.hash2.length = f.slot.hash2 ∧ pre.hash3.length = f.slot.hash3
    ∧ pre.hash4.length = f.slot.hash4 ∧ pre.commitment.length = f.slot.commitment
    ∧ pre.lessThan.length = f.slot.lessThan

instance (f : Func) (pre : Preimages) : Decidable (slotCountsMatch f pre) := by
  unfold slotCountsMatch
  infer_instance

/-- Constraints on the sink when the first mismatching slot type (in
traversal order) hits its assertion: the full slot costs of the types
already preallocated. -/
def emittedBeforeMismatch (f : Func) (pre : Preimages) : Nat :=
  if pre.hash2.length ≠ f.slot.hash2 then 0
  else if pre.hash3.length ≠ f.slot.hash3 then cPoseidon4 * f.slot.hash2
  else if pre.hash4.length ≠ f.slot.hash4 then
    cPoseidon4 * f.slot.hash2 + cPoseidon6 * f.slot.hash3
  else if pre.commitment.length ≠ f.slot.commitment then
    cPoseidon4 * f.slot.hash2 + cPoseidon6 * f.slot.hash3 + cPoseidon8 * f.slot.hash4
  else
    cPoseidon4 * f.slot.hash2 + cPoseidon6 * f.slot.hash3 + cPoseidon8 * f.slot.hash4
      + cPoseidon3 * f.slot.commitment

instance {α β : Type} [DecidableEq α] [DecidableEq β] : DecidableEq (Except α β) := fun x y =>
  match x, y with
  | .error a, .error b =>
      if h : a = b then isTrue (by rw [h]) else isFalse (by simp [h])
  | .error _, .ok _ => isFalse (by simp)
  | .ok _, .error _ => isFalse (by simp)
  | .ok a, .ok b =>
      if h : a = b then isTrue (by rw [h]) else isFalse (by simp [h])

theorem emittedBeforeMismatch_le (f : Func) (pre : Preimages) :
    emittedBeforeMismatch f pre ≤ synthSlotConstraints f.slot := by
  unfold emittedBeforeMismatch synthSlotConstraints
  simp only [cPoseidon4, cPoseidon6, cPoseidon8, cPoseidon3, cLinear,
    cAllocIsNegative, cBooleanToNum]
  split_ifs <;> omega

/-- Claim C6 (amended): a preimage-count mismatch for any slot type makes
`synthesize` fail by assertion (a panic, not a recoverable error) before any
constraint of the function body is emitted; the constraints already on the
sink at the panic are exactly the slot-image constraints of the slot types
preallocated before the first mismatching one — at most the fixed slot costs,
and zero only when the first slot type already mismatches. -/
theorem slot_mismatch_assertion (env : ConstEnv) (f : Func) (pre : Preimages)
    (hmis : ¬ slotCountsMatch f pre) :
    synthRun env f pre = .error (emittedBeforeMismatch f pre)
      ∧ emittedBeforeMismatch f pre ≤ synthSlotConstraints f.slot := by
  refine ⟨?_, emittedBeforeMismatch_le f pre⟩
  obtain ⟨inp, body, s⟩ := f
  unfold slotCountsMatch at hmis
  simp only [Func.slot] at *
  unfold synthRun emittedBeforeMismatch
  simp only [Func.slot]
  by_cases h2 : pre.hash2.length = s.hash2
  · by_cases h3 : pre.hash3.length = s.hash3
    · by_cases h4 : pre.hash4.length = s.hash4
      · by_cases hc : pre.commitment.length = s.commitment
        · by_cases hl : pre.lessThan.length = s.lessThan
          · exact absurd ⟨h2, h3, h4, hc, hl⟩ hmis
          · simp [allocSlotsStep, h2, h3, h4, hc, hl]
        · simp [allocSlotsStep, h2, h3, h4, hc]
      · simp [allocSlotsStep, h2, h3, h4]
    · simp [allocSlotsStep, h2, h3]
  · simp [allocSlotsStep, h2]

/-- The failing input for claim C6 as frozen: one hash2 slot with a matching
entry, one hash3 slot but an empty hash3 preimage list. -/
def c6Func : Func :=
  .mk [] (.mk [] (.ret [])) ⟨1, 1, 0, 0, 0⟩

def c6Pre : Preimages :=
  ⟨[none], [], [], [], []⟩

/-- Claim C6 as frozen is refuted here: with the hash3 preimage count
mismatching, synthesize panics only after the hash2 slot preallocation has
already emitted its 289 Poseidon constraints on the sink — not before any
constraint is emitted. -/
theorem slot_mismatch_counterexample :
    synthRun sampleEnv c6Func c6Pre = .error 289 ∧ (289 : Nat) ≠ 0 := by
  decide

theorem slot_mismatch_assertion_witness :
    synthRun sampleEnv c6Func c6Pre = .error (emittedBeforeMismatch c6Func c6Pre)
      ∧ emittedBeforeMismatch c6Func c6Pre ≤ synthSlotConstraints c6Func.slot :=
  slot_mismatch_assertion sampleEnv c6Func c6Pre (by decide)

/-! ### The constraint counts of `synthesize` and `num_constraints` agree
except for the collected globals.  Arity-correctness asks the hash operations
to carry as many preimage variables as their arity — the LEM compiler
guarantees this for every `Func` it builds. -/

mutual
def blockArityOk : Block → Prop
  | .mk ops ctrl => opsArityOk ops ∧ ctrlArityOk ctrl
def opsArityOk : List Op → Prop
  | [] => True
  | o :: os => opArityOk o ∧ opsArityOk os
def opArityOk : Op → Prop
  | .call _ (.mk _ body _) _ => blockArityOk body
  | .hash2 _ _ preimg => preimg.length = 2
  | .hash3 _ _ preimg => preimg.length = 3
  | .hash4 _ _ preimg => preimg.length = 4
  | _ => True
def ctrlArityOk : Ctrl → Prop
  | .ret _ => True
  | .ifEq _ _ eqBlock elseBlock => blockArityOk eqBlock ∧ blockArityOk elseBlock
  | .matchTag _ cases dflt =>
      casesArityOkTag cases ∧
        (match dflt with
          | some d => blockArityOk d
          | none => True)
  | .matchVal _ cases dflt =>
      casesArityOkVal cases ∧
        (match dflt with
          | some d => blockArityOk d
          | none => True)
def casesArityOkTag : List (Nat × Block) → Prop
  | [] => True
  | (_, b) :: rest => blockArityOk b ∧ casesArityOkTag rest
def casesArityOkVal : List (Lit × Block) → Prop
  | [] => True
  | (_, b) :: rest => blockArityOk b ∧ casesArityOkVal rest
end

mutual
theorem synthBlock_eq_estBlock : ∀ b, blockArityOk b → synthBlock b = estBlock b
  | .mk ops ctrl, h => by
    rw [synthBlock, estBlock, synthOps_eq_estOps ops h.1, synthCtrl_eq_estCtrl ctrl h.2]
theorem synthOps_eq_estOps : ∀ l, opsArityOk l → synthOps l = estOps l
  | [], _ => rfl
  | o :: os, h => by
    rw [synthOps, estOps, synthOp_eq_estOp o h.1, synthOps_eq_estOps os h.2]
theorem synthOp_eq_estOp : ∀ o, opArityOk o → synthOp o = estOp o
  | .call _ (.mk _ body _) _, h => by
    rw [synthOp, estOp, synthBlock_eq_estBlock body h]
  | .hash2 _ _ preimg, h => by
    rw [synthOp, estOp, show preimg.length = 2 from h, cImplies]
  | .hash3 _ _ preimg, h => by
    rw [synthOp, estOp, show preimg.length = 3 from h, cImplies]
  | .hash4 _ _ preimg, h => by
    rw [synthOp, estOp, show preimg.length = 4 from h, cImplies]
  | .unhash2 .., _ | .unhash3 .., _ | .unhash4 .., _ => rfl
  | .null .., _ | .lit .., _ | .cast .., _ => rfl
  | .eqTag .., _ | .eqVal .., _ => rfl
  | .add .., _ | .sub .., _ | .mul .., _ | .div .., _ => rfl
  | .lt .., _ | .trunc .., _ | .divRem64 .., _ => rfl
  | .emit, _ => rfl
  | .hide .., _ | .opn .., _ => rfl
theorem synthCtrl_eq_estCtrl : ∀ c, ctrlArityOk c → synthCtrl c = estCtrl c
  | .ret vars, _ => by
    rw [synthCtrl, estCtrl, cImpliesPtrEqual, Nat.mul_comm]
  | .ifEq x y eqBlock elseBlock, h => by
    rw [synthCtrl, estCtrl, synthBlock_eq_estBlock eqBlock h.1,
      synthBlock_eq_estBlock elseBlock h.2]
    unfold cAllocatedBit cImplies cEnforceSelector
    omega
  | .matchTag v cases dflt, h => by
    rcases dflt with _ | d
    · rw [synthCtrl, estCtrl, synthCasesTag_eq cases h.1]
      unfold cAllocatedBit cImplies cEnforceSelector
      omega
    · rw [synthCtrl, estCtrl, synthCasesTag_eq cases h.1, synthBlock_eq_estBlock d h.2]
      unfold cAllocatedBit cImplies cEnforceSelector
      omega
  | .matchVal v cases dflt, h => by
    rcases dflt with _ | d
    · rw [synthCtrl, estCtrl, synthCasesVal_eq cases h.1]
      unfold cAllocatedBit cImplies cEnforceSelector
      omega
    · rw [synthCtrl, estCtrl, synthCasesVal_eq cases h.1, synthBlock_eq_estBlock d h.2]
      unfold cAllocatedBit cImplies cEnforceSelector
      omega
theorem synthCasesTag_eq : ∀ l, casesArityOkTag l → synthCasesTag l = estCasesTag l
  | [], _ => rfl
  | (_, b) :: rest, h => by
    rw [synthCasesTag, estCasesTag, synthBlock_eq_estBlock b h.1,
      synthCasesTag_eq rest h.2]
theorem synthCasesVal_eq : ∀ l, casesArityOkVal l → synthCasesVal l = estCasesVal l
  | [], _ => rfl
  | (_, b) :: rest, h => by
    rw [synthCasesVal, estCasesVal, synthBlock_eq_estBlock b h.1,
      synthCasesVal_eq rest h.2]
end

theorem synthSlotConstraints_eq_estSlotConstraints (s : SlotsCounter) :
    synthSlotConstraints s = estSlotConstraints s := by
  unfold synthSlotConstraints estSlotConstraints cPoseidon4 cPoseidon6 cPoseidon8
    cPoseidon3 cLinear cAllocIsNegative cBooleanToNum
  omega

/-- For every arity-correct function, the constraint totals of `synthesize`
and `num_constraints` differ only through the two globals sets: the gadget
and slot costs agree exactly, so the (refuted) claim C1 fails precisely in
the estimator bookkeeping of the `Div` and `Lit` global constants. -/
theorem constraint_counts_differ_only_in_globals (env : ConstEnv) (f : Func)
    (h : blockArityOk f.body) :
    synthConstraints env f + (estGlobalsBlock env f.body).card
      = numConstraints env f + (synthGlobalsBlock env f.body).card := by
  obtain ⟨inp, body, s⟩ := f
  simp only [Func.body] at h
  rw [synthConstraints, numConstraints, synthBlock_eq_estBlock body h,
    synthSlotConstraints_eq_estSlotConstraints, Func.body]
  omega

theorem constraint_counts_differ_only_in_globals_witness :
    synthConstraints sampleEnv divFunc + (estGlobalsBlock sampleEnv divFunc.body).card
      = numConstraints sampleEnv divFunc
        + (synthGlobalsBlock sampleEnv divFunc.body).card :=
  constraint_counts_differ_only_in_globals sampleEnv divFunc ⟨⟨trivial, trivial⟩, trivial⟩
